import Mathlib

/-!
Verification of the arbitrage-opportunities core (`src/pairs.rs`, `src/algorithm.rs`,
`src/main.rs`) against its natural-language specification.

Shallow embedding conventions:
* Rust `HashMap` values are modelled as association lists; the unspecified iteration
  order of a `HashMap` is modelled by the order of the list, and claims about
  run-to-run reproducibility become permutation-invariance statements.
* A Rust panic (out-of-bounds index, missing `HashMap` key) is the `crash`
  constructor of `RRes`; an `anyhow`/parse error return is `fail`.
* `u64` arithmetic is `Nat` with an explicit `% 2 ^ 64` where overflow is possible
  (release-mode wrapping semantics).
* The `f64` values produced by `log2` are modelled by `Real.logb 2` for the
  pipeline-level statements; the Bellman-Ford core is stated generically in the
  weight type `W`, exactly mirroring the source control flow.
* The `f64` trade-amount replay `new_amount *= rate as f64 / 10^8` is modelled
  bit-exactly: binary64 values are carried as exact rationals `num / 2 ^ shift`
  and every cast, division and multiplication is re-rounded to 53 significant
  bits with IEEE round-to-nearest, ties-to-even (these operations, unlike the
  relaxation phase's libm `log2`, are exactly specified and never leave the
  normal range here).
-/

/-- Result of running a piece of Rust code: `crash` models a panic
(out-of-bounds indexing or a missing `HashMap` key), `fail` models an error
return (the `anyhow` parse errors of `to_graph`), `ok` is normal completion. -/
inductive RRes (α : Type) where
  | crash : RRes α
  | fail : RRes α
  | ok : α → RRes α
deriving DecidableEq

/-- True exactly on `ok` results. -/
def RRes.isOk {α : Type} : RRes α → Bool
  | .ok _ => true
  | _ => false

/-- Split a character list at every occurrence of `c`, keeping empty segments:
the model of Rust's `str::split(c)` (and of Lean's `String.splitOn`, re-implemented
structurally so that it evaluates by `decide`). -/
def splitOnChar (c : Char) : List Char → List (List Char)
  | [] => [[]]
  | x :: xs =>
    let r := splitOnChar c xs
    if x = c then [] :: r
    else
      match r with
      | [] => [[x]]
      | h :: t => (x :: h) :: t

/-- Rust `str::split(c).collect::<Vec<&str>>()` on a `String`. -/
def rustSplit (c : Char) (s : String) : List String :=
  (splitOnChar c s.data).map (fun l => String.mk l)

/-- Accumulator loop of decimal-digit parsing. -/
def parseDigitsAux : Nat → List Char → Option Nat
  | acc, [] => some acc
  | acc, c :: cs =>
    if c.isDigit then parseDigitsAux (acc * 10 + (c.toNat - 48)) cs else none

/-- Parse a non-empty all-digit character list as a natural number. -/
def parseDigits : List Char → Option Nat
  | [] => none
  | cs => parseDigitsAux 0 cs

/-- Model of Rust `str::parse::<u64>()`: an optional leading `+`, then one or
more decimal digits, failing on any other character and on overflow past
`2 ^ 64 - 1`. -/
def parse_u64 (s : String) : Option Nat :=
  let cs := match s.data with
    | '+' :: rest => rest
    | cs => cs
  match parseDigits cs with
  | some n => if n < 2 ^ 64 then some n else none
  | none => none

/-- Adjacency structure of `pairs.rs`: `Graph(HashMap<String, HashMap<String, u64>>)`
as an association list keyed by source token, each row an association list keyed by
destination token carrying the fixed-point `u64` weight. -/
abbrev GraphAL : Type := List (String × List (String × Nat))

/-- Model of `HashMap::insert`: update the value at `k` in place, or append a new
entry at the end. -/
def alInsert {V : Type} : List (String × V) → String → V → List (String × V)
  | [], k, v => [(k, v)]
  | (k', v') :: rest, k, v =>
    if k' = k then (k, v) :: rest else (k', v') :: alInsert rest k v

/-- Model of `HashMap::get`. -/
def alFind {V : Type} : List (String × V) → String → Option V
  | [], _ => none
  | (k', v) :: rest, k => if k' = k then some v else alFind rest k

/-- The body of `to_graph`'s insertion: `graph_inner.get_mut(first_token)` followed
by an insert into the existing row, or creation of a fresh single-entry row. -/
def alInsert2 : GraphAL → String → String → Nat → GraphAL
  | [], a, b, w => [(a, [(b, w)])]
  | (k, edges) :: rest, a, b, w =>
    if k = a then (a, alInsert edges b w) :: rest
    else (k, edges) :: alInsert2 rest a b w

/-- Key list of an association list (the `HashMap::keys` of the model). -/
def keysAL {V : Type} (g : List (String × V)) : List String := g.map Prod.fst

/-- Two-level lookup `graph[a][b]` as an `Option`. -/
def lookup2 {V : Type} (g : List (String × List (String × V))) (a b : String) :
    Option V :=
  (alFind g a).bind (fun inner => alFind inner b)

/-- Per-entry work of `PairMap::to_graph` (`pairs.rs` lines 73-99): split the key
on `-` (indexing `tokens[1]` panics when the delimiter is absent), split the value
on `.`, parse the whole part as `u64` (early error return), index `v_parts[1]`
(panics when the separator is absent), parse the fractional part as `u64`, and
reconstruct `whole * 100000000 + fractional` with `u64` wrapping. -/
def parseEntry : String × String → RRes (String × String × Nat) := fun (k, v) =>
  match rustSplit '-' k with
  | t0 :: t1 :: _ =>
    match rustSplit '.' v with
    | [] => .crash
    | w0 :: vrest =>
      match parse_u64 w0 with
      | none => .fail
      | some whole =>
        match vrest with
        | [] => .crash
        | f0 :: _ =>
          match parse_u64 f0 with
          | none => .fail
          | some frac => .ok (t0, t1, (whole * 100000000 + frac) % 2 ^ 64)
  | _ => .crash

/-- Loop of `to_graph` over the rate map entries, threading the graph under
construction and stopping at the first panic or parse error. -/
def to_graphAux : List (String × String) → GraphAL → RRes GraphAL
  | [], g => .ok g
  | e :: rest, g =>
    match parseEntry e with
    | .ok (a, b, w) => to_graphAux rest (alInsert2 g a b w)
    | .crash => .crash
    | .fail => .fail

/-- Model of `PairMap::to_graph` (`pairs.rs` lines 71-103). The input rate map is
given as a list of key/value pairs in some iteration order. -/
def to_graph (rates : List (String × String)) : RRes GraphAL :=
  to_graphAux rates []

/-- Successfully parsed entries of a rate list, as `(first, second, weight)`
triples in iteration order. -/
def entryList (rates : List (String × String)) : List (String × String × Nat) :=
  rates.filterMap (fun e =>
    match parseEntry e with
    | .ok t => some t
    | _ => none)

/-- Replay of `to_graph`'s insertions from a list of parsed entries. -/
def buildGraph : List (String × String × Nat) → GraphAL → GraphAL
  | [], g => g
  | (a, b, w) :: rest, g => buildGraph rest (alInsert2 g a b w)

/-- Value of the last entry for the ordered pair `(x, y)` in a parsed-entry list
(`HashMap::insert` is last-write-wins). -/
def lastVal : List (String × String × Nat) → String → String → Option Nat
  | [], _, _ => none
  | (a, b, w) :: rest, x, y =>
    match lastVal rest x y with
    | some w' => some w'
    | none => if x = a ∧ y = b then some w else none

/-- Byte-lexicographic comparison of character lists, the order Rust's
`Vec::<String>::sort` uses (UTF-8 byte order coincides with code-point order). -/
def strLeAux : List Char → List Char → Bool
  | [], _ => true
  | _ :: _, [] => false
  | a :: as1, b :: bs1 =>
    if a = b then strLeAux as1 bs1 else decide (a.toNat < b.toNat)

/-- String order used for `indices_map.sort()` and `arbitrage.sort()`. -/
def strOrd (a b : String) : Prop := strLeAux a.data b.data = true

instance : DecidableRel strOrd := fun a b => by
  unfold strOrd; infer_instance

/-- Model of Rust `Vec::sort` on strings. -/
def sortStrings (l : List String) : List String := List.insertionSort strOrd l

/-- State of one arbitrage computation (`algorithm.rs` lines 19-32), generic in
the model `W` of `f64`: `min_dist` and `pre` are `Vec`s, `indices_map` the sorted
token list filled in by `compute_arbitrage_opportunities`. -/
structure ArbitrageIteration (W : Type) where
  min_dist : List W
  pre : List Int
  indices_map : List String
deriving DecidableEq

/-- Model of `ArbitrageIteration::new`: `min_dist` is filled with `f64::MAX`
(passed here as `wmax`), `pre` with the sentinel `-1`. -/
def ArbitrageIteration.new {W : Type} (wmax : W) (tokens_count : Nat) :
    ArbitrageIteration W :=
  ⟨List.replicate tokens_count wmax, List.replicate tokens_count (-1), []⟩

/-- Fold a panic/error-propagating step over a list (the model of a Rust `for`
loop whose body can panic). -/
def foldRR {σ α : Type} (f : σ → α → RRes σ) : σ → List α → RRes σ
  | st, [] => .ok st
  | st, a :: rest =>
    match f st a with
    | .ok st' => foldRR f st' rest
    | .crash => .crash
    | .fail => .fail

/-- Innermost body of the relaxation triple loop (`algorithm.rs` lines 57-84):
skip the diagonal, look up the edge weight (a missing key in the log-negated
graph is a panic), skip the `f64::MAX` sentinel, and relax
`min_dist[dest]` through `source`. -/
def relaxPair {W : Type} [LinearOrder W] [Add W] (wmax : W) (idx : List String)
    (lw : String → String → Option W) (st : List W × List Int) (s d : Nat) :
    RRes (List W × List Int) :=
  if s = d then .ok st
  else
    match idx.get? s, idx.get? d with
    | some ts, some td =>
      match lw ts td with
      | none => .crash
      | some w =>
        if w = wmax then .ok st
        else
          match st.1.get? d, st.1.get? s with
          | some mdd, some mds =>
            if mds + w < mdd then .ok (st.1.set d (mds + w), st.2.set d (s : Int))
            else .ok st
          | _, _ => .crash
    | _, _ => .crash

/-- The `n - 1` rounds of relaxation over all ordered vertex pairs. -/
def relaxRounds {W : Type} [LinearOrder W] [Add W] (wmax : W) (idx : List String)
    (n : Nat) (lw : String → String → Option W) (rounds : Nat)
    (st : List W × List Int) : RRes (List W × List Int) :=
  foldRR (fun st _ =>
      foldRR (fun st s =>
          foldRR (fun st d => relaxPair wmax idx lw st s d) st (List.range n))
        st (List.range n))
    st (List.range rounds)

/-- Model of `ArbitrageIteration::compute_arbitrage_opportunities`
(`algorithm.rs` lines 35-86): sort the token keys into `indices_map`, write
`min_dist[0] = 0` (a panic when there is no vertex), then run `n - 1` rounds of
relaxation. The graph is consumed only through its key list and its lookup
function, exactly as the source touches it. -/
def compute_arbitrage_opportunities {W : Type} [LinearOrder W] [Add W] [Zero W]
    (wmax : W) (st : ArbitrageIteration W)
    (lg : List (String × List (String × W))) : RRes (ArbitrageIteration W) :=
  match st.min_dist with
  | [] => .crash
  | _ :: _ =>
    match relaxRounds wmax (sortStrings (keysAL lg)) (keysAL lg).length
        (lookup2 lg) ((keysAL lg).length - 1) (st.min_dist.set 0 0, st.pre) with
    | .ok (md, pr) => .ok ⟨md, pr, sortStrings (keysAL lg)⟩
    | .crash => .crash
    | .fail => .fail

/-- Rust `i32 as usize` (two's-complement reinterpretation on a 64-bit target):
`-1` becomes `2 ^ 64 - 1`. -/
def usizeCast (i : Int) : Nat := (i % 2 ^ 64).toNat

/-- The predecessor walk of `trades` (`algorithm.rs` lines 108-112):
`while !print_cycle.contains(&(pre[source] as usize)) { source = pre[source] as usize;
print_cycle.push(source) }`. Evaluating `pre[source]` panics when `source` is out
of bounds — in particular when a `-1` sentinel was cast to `2 ^ 64 - 1` on the
previous step. Each iteration pushes a value distinct from all earlier ones and
drawn from the `usizeCast` image of `pre`'s entries plus the initial vertex, so
`pre.length + 2` fuel can never be exhausted; the fuel-out branch is dead code
needed only for structural recursion. -/
def walkCycle (pr : List Int) : Nat → List Nat → Nat → RRes (Nat × List Nat)
  | 0, _, _ => .crash
  | fuel + 1, cyc, src =>
    match pr.get? src with
    | none => .crash
    | some p =>
      if usizeCast p ∈ cyc then .ok (src, cyc)
      else walkCycle pr fuel (cyc ++ [usizeCast p]) (usizeCast p)

/-- Map cycle indices back to token strings (`indices_map[*idx]`, panicking on an
out-of-range index). -/
def mapTokens (idx : List String) : List Nat → Option (List String)
  | [] => some []
  | i :: rest =>
    match idx.get? i, mapTokens idx rest with
    | some t, some ts => some (t :: ts)
    | _, _ => none

/-- A non-negative binary64 (`f64`) value represented exactly as the rational
`num / 2 ^ shift`. The representation is not kept normalized; every arithmetic
operation re-rounds its exact result to 53 significant bits with IEEE
round-to-nearest, ties-to-even. The `u64`-to-`f64` cast, multiplication,
division and comparison used by the replay loop are exactly specified by
IEEE 754 (unlike the platform-libm `log2` of the relaxation phase), and all
values arising in the theorems lie well inside the normal range, so this is
the bit-exact semantics of the source's replay arithmetic. -/
structure F64 where
  num : Nat
  shift : Int
deriving DecidableEq

/-- Fuel-bounded bit-length loop; the fuel covers every number below
`2 ^ 4096`, far beyond anything the replay arithmetic can produce. -/
def bitLenAux : Nat → Nat → Nat
  | 0, _ => 0
  | fuel + 1, n => if n = 0 then 0 else bitLenAux fuel (n / 2) + 1

/-- Bit length of a natural number. -/
def bitLen (n : Nat) : Nat := bitLenAux 4096 n

/-- Drop the `k` low bits of `n`, rounding to nearest, ties to even. -/
def dropRound (n k : Nat) : Nat :=
  if k = 0 then n
  else
    let q := n / 2 ^ k
    let r := n % 2 ^ k
    let half := 2 ^ (k - 1)
    if r < half then q
    else if half < r then q + 1
    else if q % 2 = 0 then q else q + 1

/-- Round the exact value `n / 2 ^ s` to at most 53 significant bits. -/
def round53 (n : Nat) (s : Int) : F64 :=
  if bitLen n ≤ 53 then ⟨n, s⟩
  else ⟨dropRound n (bitLen n - 53), s - (bitLen n - 53 : Nat)⟩

/-- Rust `u64 as f64`: round to nearest, ties to even (exact below `2 ^ 53`). -/
def natToF64 (n : Nat) : F64 := round53 n 0

/-- Correctly rounded binary64 multiplication. -/
def f64Mul (x y : F64) : F64 := round53 (x.num * y.num) (x.shift + y.shift)

/-- Correctly rounded binary64 division: scale the dividend by `2 ^ 128`, take
the integer quotient and remainder, and round the exact quotient to 53
significant bits; the remainder enters the tie comparison, so the rounding
decision is exact. (The zero-divisor branch is unreachable: the only divisor
used is `10^8`.) -/
def f64Div (x y : F64) : F64 :=
  if y.num = 0 then ⟨0, 0⟩
  else
    let A := x.num * 2 ^ 128
    let B := y.num
    let Q := A / B
    let R := A % B
    if bitLen Q ≤ 53 then ⟨Q, x.shift - y.shift + 128⟩
    else
      let k := bitLen Q - 53
      let q := Q / 2 ^ k
      let r := Q % 2 ^ k
      let q2 :=
        if 2 * (r * B + R) < B * 2 ^ k then q
        else if B * 2 ^ k < 2 * (r * B + R) then q + 1
        else if q % 2 = 0 then q else q + 1
      ⟨q2, x.shift - y.shift + (128 - k : Nat)⟩

/-- Exact comparison of two binary64 values. -/
def f64Lt (x y : F64) : Prop :=
  if x.shift ≤ y.shift then x.num * 2 ^ (y.shift - x.shift).toNat < y.num
  else x.num < y.num * 2 ^ (x.shift - y.shift).toNat

instance (x y : F64) : Decidable (f64Lt x y) := by
  unfold f64Lt
  exact if h : x.shift ≤ y.shift then by rw [if_pos h]; infer_instance
    else by rw [if_neg h]; infer_instance

/-- The constant `100000000f64` (exactly representable). -/
def f64_1e8 : F64 := natToF64 100000000

/-- Replay of the cycle in the original integer-weighted graph (`algorithm.rs`
lines 125-131): `new_amount *= rate as f64 / 100000000f64`, with the `u64`
cast, the division and the multiplication each correctly rounded to binary64,
exactly as the source computes. A missing edge in the integer graph is a panic
(`none`). -/
def replayAmt (gi : String → String → Option Nat) : F64 → List String →
    Option F64
  | acc, a :: b :: rest =>
    match gi a b with
    | none => none
    | some r => replayAmt gi (f64Mul acc (f64Div (natToF64 r) f64_1e8)) (b :: rest)
  | acc, _ => some acc

/-- The guard `new_amount > trade_amount as f64`, as the exact comparison of
the two binary64 values. -/
def amtGt (ta : Nat) (acc : F64) : Prop := f64Lt (natToF64 ta) acc

instance (ta : Nat) (acc : F64) : Decidable (amtGt ta acc) := by
  unfold amtGt; infer_instance

/-- Integer division rounding to nearest, ties to even. -/
def divRoundHalfEven (a b : Nat) : Nat :=
  let q := a / b
  let r := a % b
  if 2 * r < b then q
  else if b < 2 * r then q + 1
  else if q % 2 = 0 then q else q + 1

/-- Left-pad a string with zeros to length `n`. -/
def padZeros (s : String) (n : Nat) : String :=
  String.mk (List.replicate (n - s.length) '0') ++ s

/-- Render the binary64 amount with 8 decimal places: the model of
`format!("{:.8}", new_amount)`, rounding the exact binary value to nearest
with ties to even. -/
def formatAmount8 (acc : F64) : String :=
  let scaled :=
    if 0 ≤ acc.shift then
      divRoundHalfEven (acc.num * 100000000) (2 ^ acc.shift.toNat)
    else acc.num * 100000000 * 2 ^ (-acc.shift).toNat
  toString (scaled / 100000000) ++ "." ++ padZeros (toString (scaled % 100000000)) 8

/-- The report string for one profitable cycle (`algorithm.rs` lines 134-137). -/
def reportString (path : String) (acc : F64) : String :=
  "Arbitrage opportunity: " ++ path ++ ", new trade amount is " ++ formatAmount8 acc

/-- Output structure of `trades`. -/
structure Trades where
  arbitrage : List String
deriving DecidableEq

/-- Inner (`dest_curr`) loop body of `trades` (`algorithm.rs` lines 100-143).
The state carries the mutable `source_curr` — the predecessor walk reassigns it
and subsequent `dest_curr` iterations of the same outer iteration observe the
new value — together with the `paths` and `arbitrage_paths` sets (association
lists in insertion order; only membership and insertion are used, so list order
never influences the sorted output). -/
def tradesInner {W : Type} [LinearOrder W] [Add W] (idx : List String)
    (md : List W) (pr : List Int) (lw : String → String → Option W)
    (ta : Nat) (gi : String → String → Option Nat)
    (st : Nat × List String × List String) (d : Nat) :
    RRes (Nat × List String × List String) :=
  match md.get? d, md.get? st.1 with
  | some mdd, some mds =>
    match idx.get? st.1, idx.get? d with
    | some ts, some td =>
      match lw ts td with
      | none => .crash
      | some w =>
        if mds + w < mdd then
          match walkCycle pr (pr.length + 2) [d] st.1 with
          | .crash => .crash
          | .fail => .fail
          | .ok (src', cyc) =>
            match mapTokens idx (cyc ++ [d]) with
            | none => .crash
            | some toks =>
              if String.intercalate " <--> " toks ∈ st.2.1 then
                .ok (src', st.2.1, st.2.2)
              else
                match replayAmt gi (natToF64 ta) toks with
                | none => .crash
                | some acc =>
                  .ok (src', st.2.1 ++ [String.intercalate " <--> " toks],
                    if amtGt ta acc then
                      if reportString (String.intercalate " <--> " toks) acc ∈ st.2.2 then
                        st.2.2
                      else st.2.2 ++ [reportString (String.intercalate " <--> " toks) acc]
                    else st.2.2)
        else .ok st
    | _, _ => .crash
  | _, _ => .crash

/-- Outer (`source_curr`) loop body of `trades`: run the inner loop over all
destinations, threading the mutable `source_curr` through it, and keep the
resulting `paths`/`arbitrage_paths` state. -/
def tradesOuter {W : Type} [LinearOrder W] [Add W] (idx : List String)
    (md : List W) (pr : List Int) (lw : String → String → Option W) (ta : Nat)
    (gi : String → String → Option Nat) (n : Nat)
    (ps : List String × List String) (s : Nat) :
    RRes (List String × List String) :=
  match foldRR (tradesInner idx md pr lw ta gi) (s, ps) (List.range n) with
  | .ok (_, ps') => .ok ps'
  | .crash => .crash
  | .fail => .fail

/-- Model of `ArbitrageIteration::trades` (`algorithm.rs` lines 90-149): scan all
ordered vertex pairs for a still-relaxable edge, reconstruct and deduplicate the
cycle, replay it in the integer graph, keep it only when the replayed amount
strictly exceeds the trade amount, and sort the report strings. -/
def trades {W : Type} [LinearOrder W] [Add W] (st : ArbitrageIteration W)
    (lg : List (String × List (String × W))) (trade_amount : Nat) (g : GraphAL) :
    RRes Trades :=
  match
    foldRR
      (tradesOuter st.indices_map st.min_dist st.pre (lookup2 lg) trade_amount
        (lookup2 g) st.min_dist.length)
      ([], []) (List.range st.min_dist.length)
  with
  | .ok (_, arb) => .ok ⟨sortStrings arb⟩
  | .crash => .crash
  | .fail => .fail

/-- Weight assigned by `Graph::log_negate` (`pairs.rs` line 57):
`-1f64 * (*weight.1 as f64).log2()`, i.e. the negated base-2 logarithm of the
scaled integer weight itself. Modelled over the reals; note that the source's
`f64` computation yields `+inf` at weight `0` while `Real.logb 2 0 = 0`, so no
theorem in this file evaluates the relaxation on a zero-weight edge. -/
noncomputable def log_negate_weight (w : Nat) : ℝ := -(Real.logb 2 (w : ℝ))

/-- Model of `Graph::log_negate` (`pairs.rs` lines 52-63): same nested key
structure, each weight replaced by `log_negate_weight`. -/
noncomputable def log_negate (g : GraphAL) : List (String × List (String × ℝ)) :=
  g.map (fun p => (p.1, p.2.map (fun q => (q.1, log_negate_weight q.2))))

/-- Exact value of `f64::MAX`, the initial distance and the skip sentinel. -/
noncomputable def FMAX : ℝ := 2 ^ 1024 - 2 ^ 971

/-- The full pipeline of `main.rs` lines 26-33: build the integer graph,
log-negate it, run the relaxation from the token count of the integer graph, and
extract the sorted arbitrage reports. -/
noncomputable def pipeline (rates : List (String × String)) (trade_amount : Nat) :
    RRes (List String) :=
  match to_graph rates with
  | .crash => .crash
  | .fail => .fail
  | .ok g =>
    let lng := log_negate g
    let tokens_count := (keysAL g).length
    match compute_arbitrage_opportunities FMAX
        (ArbitrageIteration.new FMAX tokens_count) lng with
    | .crash => .crash
    | .fail => .fail
    | .ok st =>
      match trades st lng trade_amount g with
      | .ok tr => .ok tr.arbitrage
      | .crash => .crash
      | .fail => .fail

/-- True exactly on `fail` results (an error return, never a panic). -/
def RRes.isFail {α : Type} : RRes α → Bool
  | .fail => true
  | _ => false

/-! ### C3 — zero rates are accepted, not rejected -/

/-- C3 counterexample: the claim says a rate value of `0.00000000` is rejected by
the build/transform phase with a `ZeroOrInvalidRate` error; in fact `to_graph`
accepts it, stores integer weight `0`, and returns no error. -/
theorem zero_rate_not_rejected :
    to_graph [("A-B", "0.00000000")] = .ok [("A", [("B", 0)])] ∧
    (to_graph [("A-B", "0.00000000")]).isFail = false := by
  constructor <;> rfl

/-- C3 amended: a `0.00000000` rate is accepted by `to_graph` with integer
weight `0`, and the zero weight is handed unchecked to the log-negation
transform (whose `f64` value is `-log2(0) = +inf`); no `ZeroOrInvalidRate`
error exists anywhere in the code. -/
theorem zero_rate_flows_to_log_transform :
    to_graph [("A-B", "0.00000000")] = .ok [("A", [("B", 0)])] ∧
    lookup2 (log_negate [("A", [("B", 0)])]) "A" "B" = some (log_negate_weight 0) := by
  constructor <;> rfl

/-! ### C5 — empty input panics, there is no EmptyTokenSet error -/

/-- C5 counterexample: the claim says an empty rate mapping aborts with an
`EmptyTokenSet` error detected before the relaxation engine runs; in fact the
pipeline panics (out-of-bounds write `min_dist[0] = 0` inside
`compute_arbitrage_opportunities`) and no error value is produced. -/
theorem empty_input_panics_not_error :
    pipeline [] 100 = .crash ∧ (pipeline [] 100).isFail = false := by
  constructor <;> rfl

/-- C5 amended: for an empty rate mapping, `to_graph` succeeds with an empty
graph, and the relaxation engine is invoked with zero tokens and panics at the
`min_dist[0] = 0` write; the run crashes for every trade amount instead of
returning an error. -/
theorem empty_input_crash (a : Nat) :
    to_graph [] = .ok [] ∧
    compute_arbitrage_opportunities FMAX (ArbitrageIteration.new FMAX 0)
      (log_negate []) = .crash ∧
    pipeline [] a = .crash := by
  exact ⟨rfl, rfl, rfl⟩

/-- C5 amended, witness at trade amount 100. -/
theorem empty_input_crash_witness :
    to_graph [] = .ok [] ∧
    compute_arbitrage_opportunities FMAX (ArbitrageIteration.new FMAX 0)
      (log_negate []) = .crash ∧
    pipeline [] 100 = .crash :=
  empty_input_crash 100

/-! ### C6 — log-negation acts on the scaled integer, not on the rate -/

/-- C6 counterexample: the claim says the transform assigns the edge weight
`-log2(rate)`, i.e. `-log2(w / 10^8)`. For the self-rate `1.00000000`
(`w = 10^8`) the claimed weight is `-log2(1) = 0`, but `log_negate` assigns
`-log2(10^8) ≈ -26.575 ≠ 0`. -/
theorem log_negate_not_rate_log :
    lookup2 (log_negate [("A", [("A", 100000000)])]) "A" "A" =
      some (log_negate_weight 100000000) ∧
    log_negate_weight 100000000 ≠ -(Real.logb 2 ((100000000 : ℝ) / 10 ^ 8)) := by
  refine ⟨rfl, ?_⟩
  have h1 : (0:ℝ) < Real.logb 2 ((100000000 : Nat) : ℝ) :=
    Real.logb_pos (by norm_num) (by norm_num)
  have h2 : ((100000000 : ℝ) / 10 ^ 8) = 1 := by norm_num
  rw [h2, Real.logb_one, neg_zero]
  unfold log_negate_weight
  intro h
  rw [neg_eq_zero] at h
  rw [h] at h1
  exact lt_irrefl 0 h1

/-- C6 amended: the transform assigns `-log2(w)` for the scaled integer weight
`w = rate * 10^8`, which is `-log2(rate) - log2(10^8)`; adding two such weights
corresponds to multiplying the scaled integer weights (not the rates). -/
theorem log_negate_weight_scaled (w a b : Nat) (hw : 0 < w) (ha : 0 < a)
    (hb : 0 < b) :
    log_negate_weight w = -(Real.logb 2 ((w : ℝ) / 10 ^ 8)) - Real.logb 2 (10 ^ 8) ∧
    log_negate_weight a + log_negate_weight b = -(Real.logb 2 ((a : ℝ) * (b : ℝ))) := by
  have hw' : ((w : ℝ)) ≠ 0 := by positivity
  have ha' : ((a : ℝ)) ≠ 0 := by positivity
  have hb' : ((b : ℝ)) ≠ 0 := by positivity
  have hp : ((10 : ℝ) ^ 8) ≠ 0 := by norm_num
  constructor
  · unfold log_negate_weight
    rw [Real.logb_div hw' hp]
    ring
  · unfold log_negate_weight
    rw [Real.logb_mul ha' hb']
    ring

/-- C6 amended, witness at `w = a = b = 10^8`. -/
theorem log_negate_weight_scaled_witness :
    log_negate_weight 100000000 =
      -(Real.logb 2 ((100000000 : ℝ) / 10 ^ 8)) - Real.logb 2 (10 ^ 8) ∧
    log_negate_weight 100000000 + log_negate_weight 100000000 =
      -(Real.logb 2 ((100000000 : ℝ) * (100000000 : ℝ))) :=
  log_negate_weight_scaled 100000000 100000000 100000000 (by norm_num) (by norm_num)
    (by norm_num)

/-! ### C8 — a single self-pair token makes `trades` panic -/

/-- C8: the claim (and the spec's degenerate-input property) says a single-token
mapping with only its self-pair yields an empty report list without error or
panic. In fact the self-edge's log weight `-log2(10^8)` is negative, the
relaxation-violation check in `trades` fires for the pair `(0,0)`, the
predecessor walk reads `pre[0] = -1`, casts it to `2^64 - 1`, and the next
`pre[...]` access is out of bounds: the pipeline panics for every trade
amount. -/
theorem single_token_panics (a : Nat) :
    pipeline [("T-T", "1.00000000")] a = .crash := by
  have hw : log_negate_weight 100000000 < 0 := by
    have h1 : (0:ℝ) < Real.logb 2 ((100000000 : Nat) : ℝ) :=
      Real.logb_pos (by norm_num) (by norm_num)
    unfold log_negate_weight
    linarith
  have hcompute : compute_arbitrage_opportunities FMAX
      (ArbitrageIteration.new FMAX 1) (log_negate [("T", [("T", 100000000)])]) =
      .ok ⟨[0], [-1], ["T"]⟩ := rfl
  have hlk : lookup2 (log_negate [("T", [("T", 100000000)])]) "T" "T" =
      some (log_negate_weight 100000000) := rfl
  have hwalk : walkCycle [-1] 3 [0] 0 = .crash := by decide
  unfold pipeline
  show (match compute_arbitrage_opportunities FMAX (ArbitrageIteration.new FMAX 1)
      (log_negate [("T", [("T", 100000000)])]) with
    | .crash => RRes.crash
    | .fail => RRes.fail
    | .ok st =>
      match trades st (log_negate [("T", [("T", 100000000)])]) a
          [("T", [("T", 100000000)])] with
      | .ok tr => RRes.ok tr.arbitrage
      | .crash => RRes.crash
      | .fail => RRes.fail) = RRes.crash
  rw [hcompute]
  simp only [trades, tradesOuter, foldRR, List.range, List.range.loop, tradesInner]
  norm_num
  rw [hlk]
  simp only [Option.some.injEq]
  rw [if_pos hw, hwalk]

/-! ### C7 — missing rates are not sentinelled: the engine panics -/

/-- C7 counterexample: the claim says a missing rate for an ordered pair of
distinct tokens is represented by the unreachable sentinel weight and skipped,
so that relaxation and extraction cannot fail. For the two-entry mapping
`A-B`, `B-C` the ordered pair `(B, A)` has no rate; the relaxation loop indexes
`log_negated_graph["B"]["A"]`, which is a missing-key panic, and the pipeline
crashes. -/
theorem missing_rate_panics :
    pipeline [("A-B", "1.00000000"), ("B-C", "1.00000000")] 100 = .crash := by
  have hpos : (0:ℝ) < Real.logb 2 ((100000000 : Nat) : ℝ) :=
    Real.logb_pos (by norm_num) (by norm_num)
  have hFMAX : (0:ℝ) < FMAX := by
    unfold FMAX
    norm_num
  have hw : log_negate_weight 100000000 < 0 := by
    unfold log_negate_weight; linarith
  have hne : log_negate_weight 100000000 ≠ FMAX := by
    intro h
    rw [h] at hw
    linarith
  have hlt : log_negate_weight 100000000 < FMAX := by linarith
  have hso : strOrd "A" "B" := by decide
  have hg : to_graph [("A-B", "1.00000000"), ("B-C", "1.00000000")] =
      .ok [("A", [("B", 100000000)]), ("B", [("C", 100000000)])] := rfl
  have hlkAB : lookup2 (log_negate [("A", [("B", 100000000)]),
      ("B", [("C", 100000000)])]) "A" "B" = some (log_negate_weight 100000000) := rfl
  have hlkBA : lookup2 (log_negate [("A", [("B", 100000000)]),
      ("B", [("C", 100000000)])]) "B" "A" = none := rfl
  unfold pipeline
  rw [hg]
  simp only [compute_arbitrage_opportunities, keysAL, List.map, ArbitrageIteration.new,
    List.replicate, sortStrings, List.insertionSort, List.orderedInsert,
    relaxRounds, foldRR, List.range, List.range.loop, relaxPair]
  norm_num
  rw [if_pos hso]
  norm_num
  rw [hlkAB, hlkBA]
  simp only [Option.some.injEq]
  rw [if_neg hne, if_pos hlt]

/-- Folding a step that never returns `fail` never returns `fail`. -/
theorem foldRR_isFail {σ α : Type} (f : σ → α → RRes σ)
    (hf : ∀ s a, (f s a).isFail = false) :
    ∀ (l : List α) (s : σ), (foldRR f s l).isFail = false := by
  intro l
  induction l with
  | nil => intro s; rfl
  | cons a rest ih =>
    intro s
    unfold foldRR
    cases hfa : f s a with
    | ok s' => exact ih s'
    | crash => rfl
    | fail =>
      have := hf s a
      rw [hfa] at this
      simp [RRes.isFail] at this

/-- One relaxation step never returns `fail`. -/
theorem relaxPair_isFail {W : Type} [LinearOrder W] [Add W] (wmax : W)
    (idx : List String) (lw : String → String → Option W)
    (st : List W × List Int) (s d : Nat) :
    (relaxPair wmax idx lw st s d).isFail = false := by
  unfold relaxPair
  repeat' split <;> try rfl

/-- The predecessor walk never returns `fail`. -/
theorem walkCycle_isFail (pr : List Int) :
    ∀ (fuel : Nat) (cyc : List Nat) (src : Nat),
      (walkCycle pr fuel cyc src).isFail = false := by
  intro fuel
  induction fuel with
  | zero => intro cyc src; rfl
  | succ n ih =>
    intro cyc src
    unfold walkCycle
    split
    · rfl
    · split
      · rfl
      · exact ih _ _

/-- The inner loop body of `trades` never returns `fail`. -/
theorem tradesInner_isFail {W : Type} [LinearOrder W] [Add W] (idx : List String)
    (md : List W) (pr : List Int) (lw : String → String → Option W) (ta : Nat)
    (gi : String → String → Option Nat) (st : Nat × List String × List String)
    (d : Nat) : (tradesInner idx md pr lw ta gi st d).isFail = false := by
  unfold tradesInner
  repeat' split <;> try rfl
  all_goals
    exfalso
    have hall := walkCycle_isFail pr (pr.length + 2) [d] st.1
    simp_all [RRes.isFail]

/-- The outer loop body of `trades` never returns `fail`. -/
theorem tradesOuter_isFail {W : Type} [LinearOrder W] [Add W] (idx : List String)
    (md : List W) (pr : List Int) (lw : String → String → Option W) (ta : Nat)
    (gi : String → String → Option Nat) (n : Nat)
    (ps : List String × List String) (s : Nat) :
    (tradesOuter idx md pr lw ta gi n ps s).isFail = false := by
  unfold tradesOuter
  split <;> try rfl
  exfalso
  have hall := foldRR_isFail (tradesInner idx md pr lw ta gi)
    (fun s' a => tradesInner_isFail idx md pr lw ta gi s' a) (List.range n) (s, ps)
  simp_all [RRes.isFail]

/-- C7 amended: the relaxation engine and the extraction phase have no error
path of their own — they can only complete or panic, never return a parse-style
error. (They are not total, however: `missing_rate_panics` shows a missing rate
is not sentinelled but panics, because `log_negate` never produces the
`f64::MAX` sentinel the relaxation skip tests for.) -/
theorem relax_extract_no_error_path {W : Type} [LinearOrder W] [Add W] [Zero W]
    (wmax : W) (st : ArbitrageIteration W)
    (lg : List (String × List (String × W))) (ta : Nat) (g : GraphAL) :
    (compute_arbitrage_opportunities wmax st lg).isFail = false ∧
    (trades st lg ta g).isFail = false := by
  constructor
  · unfold compute_arbitrage_opportunities
    split <;> try rfl
    split <;> try rfl
    exfalso
    have hall : (relaxRounds wmax (sortStrings (keysAL lg)) (keysAL lg).length
        (lookup2 lg) ((keysAL lg).length - 1) (st.min_dist.set 0 0, st.pre)).isFail
        = false := by
      unfold relaxRounds
      exact foldRR_isFail _
        (fun s1 _ => foldRR_isFail _
          (fun s2 a2 => foldRR_isFail _
            (fun s3 a3 => relaxPair_isFail wmax (sortStrings (keysAL lg))
              (lookup2 lg) s3 a2 a3) _ _) _ _) _ _
    simp_all [RRes.isFail]
  · unfold trades
    split <;> try rfl
    exfalso
    have hall := foldRR_isFail
      (tradesOuter st.indices_map st.min_dist st.pre (lookup2 lg) ta (lookup2 g)
        st.min_dist.length)
      (fun ps s => tradesOuter_isFail st.indices_map st.min_dist st.pre
        (lookup2 lg) ta (lookup2 g) st.min_dist.length ps s)
      (List.range st.min_dist.length) ([], [])
    simp_all [RRes.isFail]

/-! ### C2 — no false positives: reported cycles replay to a strict gain -/

/-- Folding a panic-propagating step preserves any invariant each step
preserves. -/
theorem foldRR_inv {σ α : Type} (f : σ → α → RRes σ) (P : σ → Prop)
    (hf : ∀ s a s', f s a = .ok s' → P s → P s') :
    ∀ (l : List α) (s s' : σ), foldRR f s l = .ok s' → P s → P s' := by
  intro l
  induction l with
  | nil =>
    intro s s' h hp
    unfold foldRR at h
    injection h with h
    rwa [← h]
  | cons a rest ih =>
    intro s s' h hp
    unfold foldRR at h
    cases hfa : f s a with
    | ok s1 =>
      rw [hfa] at h
      exact ih s1 s' h (hf s a s1 hfa hp)
    | crash => rw [hfa] at h; exact (RRes.noConfusion h)
    | fail => rw [hfa] at h; exact (RRes.noConfusion h)

/-- Every report the inner loop of `trades` adds comes from a replayed cycle
whose binary64 amount beats the trade amount under the `f64` guard. -/
theorem tradesInner_preserves {W : Type} [LinearOrder W] [Add W]
    (idx : List String) (md : List W) (pr : List Int)
    (lw : String → String → Option W) (ta : Nat)
    (gi : String → String → Option Nat) (P : String → Prop)
    (hP : ∀ toks acc, replayAmt gi (natToF64 ta) toks = some acc → amtGt ta acc →
      P (reportString (String.intercalate " <--> " toks) acc))
    (st : Nat × List String × List String) (d : Nat)
    (st' : Nat × List String × List String)
    (h : tradesInner idx md pr lw ta gi st d = .ok st')
    (hp : ∀ r ∈ st.2.2, P r) : ∀ r ∈ st'.2.2, P r := by
  unfold tradesInner at h
  split at h <;> try exact (RRes.noConfusion h)
  next mdd mds hmd hms =>
    split at h <;> try exact (RRes.noConfusion h)
    next ts td hts htd =>
      split at h <;> try exact (RRes.noConfusion h)
      next w hw =>
        split at h
        · split at h <;> try exact (RRes.noConfusion h)
          next src' cyc hwalk =>
            split at h <;> try exact (RRes.noConfusion h)
            next toks htoks =>
              split at h
              · injection h with h
                rw [← h]
                exact hp
              · split at h <;> try exact (RRes.noConfusion h)
                next acc hrep =>
                  injection h with h
                  rw [← h]
                  by_cases hgt : amtGt ta acc
                  · rw [if_pos hgt]
                    by_cases hmem :
                        reportString (String.intercalate " <--> " toks) acc ∈ st.2.2
                    · rw [if_pos hmem]; exact hp
                    · rw [if_neg hmem]
                      intro r hr
                      rcases List.mem_append.mp hr with hin | hnew
                      · exact hp r hin
                      · rw [List.mem_singleton.mp hnew]
                        exact hP toks acc hrep hgt
                  · rw [if_neg hgt]; exact hp
        · injection h with h
          rw [← h]
          exact hp

/-- Membership in the sorted report list is membership in the unsorted one. -/
theorem mem_sortStrings {r : String} {l : List String} :
    r ∈ sortStrings l ↔ r ∈ l :=
  (List.perm_insertionSort strOrd l).mem_iff

set_option maxRecDepth 40000 in
/-- C2 counterexample: the claim says every reported cycle's replay —
multiplying the starting amount by `rate / 10^8` per edge — strictly exceeds
the starting amount. For trade amount 3 and the cycle `B <--> A <--> B` with
rates `0.00000001` and `100000000.00000000`, the exact replay is
`3 · (1/10^8) · (10^16/10^8) = 3` exactly, which does not strictly exceed 3;
but the binary64 evaluation the source performs rounds `1/10^8` and `3 · 1e-8`
upward and yields `3.0000000000000004 > 3`, so `trades` reports the cycle. -/
theorem f64_guard_passes_nonincreasing_cycle :
    trades (W := Int) ⟨[0, 0], [0, 0], ["A", "B"]⟩
      [("A", [("A", 0), ("B", -1)]), ("B", [("A", 0), ("B", 0)])] 3
      [("A", [("B", 10000000000000000)]), ("B", [("A", 1)])] =
      .ok ⟨["Arbitrage opportunity: B <--> A <--> B, new trade amount is 3.00000000"]⟩ ∧
    ¬ ((3 : ℚ) <
        3 * ((1 : ℚ) / 100000000) * ((10000000000000000 : ℚ) / 100000000)) := by
  constructor
  · decide
  · norm_num

/-- C2 amended: every report in the list returned by `trades` is the rendering
of a token sequence whose replay in the integer graph, evaluated in binary64
exactly as the source evaluates it (`new_amount *= rate as f64 / 10^8`, with
the cast, the division and the multiplication each correctly rounded), strictly
exceeds the trade amount under the `f64` comparison
`new_amount > trade_amount as f64`. Only this rounded comparison is guaranteed;
the exact rational replay can fail to exceed the starting amount
(`f64_guard_passes_nonincreasing_cycle`). -/
theorem trades_reports_only_f64_gains {W : Type} [LinearOrder W] [Add W]
    (st : ArbitrageIteration W) (lg : List (String × List (String × W)))
    (ta : Nat) (g : GraphAL) (tr : Trades) (h : trades st lg ta g = .ok tr) :
    ∀ r ∈ tr.arbitrage, ∃ toks acc,
      replayAmt (lookup2 g) (natToF64 ta) toks = some acc ∧
      amtGt ta acc ∧
      r = reportString (String.intercalate " <--> " toks) acc := by
  set P : String → Prop := fun r => ∃ toks acc,
      replayAmt (lookup2 g) (natToF64 ta) toks = some acc ∧
      amtGt ta acc ∧
      r = reportString (String.intercalate " <--> " toks) acc with hPdef
  have hP : ∀ toks acc, replayAmt (lookup2 g) (natToF64 ta) toks = some acc →
      amtGt ta acc → P (reportString (String.intercalate " <--> " toks) acc) :=
    fun toks acc hrep hgt => ⟨toks, acc, hrep, hgt, rfl⟩
  unfold trades at h
  split at h <;> try exact (RRes.noConfusion h)
  next p arb hfold =>
    injection h with h
    rw [← h]
    intro r hr
    rw [mem_sortStrings] at hr
    have houter : ∀ (s : List String × List String) (a : Nat)
        (s' : List String × List String),
        tradesOuter st.indices_map st.min_dist st.pre (lookup2 lg) ta (lookup2 g)
          st.min_dist.length s a = .ok s' →
        (∀ r' ∈ s.2, P r') → (∀ r' ∈ s'.2, P r') := by
      intro s a s' hout hps
      unfold tradesOuter at hout
      split at hout <;> try exact (RRes.noConfusion hout)
      next q ps' hinner =>
        injection hout with hout
        rw [← hout]
        exact foldRR_inv _ (fun z => ∀ r' ∈ z.2.2, P r')
          (fun z b z' hz hpz => tradesInner_preserves st.indices_map st.min_dist
            st.pre (lookup2 lg) ta (lookup2 g) P hP z b z' hz hpz)
          (List.range st.min_dist.length) (a, s) (q, ps') hinner hps
    have hfin := foldRR_inv _ (fun z : List String × List String => ∀ r' ∈ z.2, P r')
      houter (List.range st.min_dist.length) ([], []) (p, arb) hfold
      (by intro r' hr'; exact absurd hr' (List.not_mem_nil r'))
    exact hfin r hr

set_option maxRecDepth 40000 in
/-- C2 amended, witness: a concrete `trades` run (integer log weights, one
profitable self-cycle on token `B` with rate 2.0, every binary64 step exact)
produces exactly one report, and the theorem yields its replayed cycle and the
passing `f64` comparison. -/
theorem trades_reports_only_f64_gains_witness :
    ∃ toks acc,
      replayAmt (lookup2 [("B", [("B", 200000000)])]) (natToF64 100) toks =
        some acc ∧
      amtGt 100 acc ∧
      "Arbitrage opportunity: B <--> B, new trade amount is 200.00000000" =
        reportString (String.intercalate " <--> " toks) acc :=
  trades_reports_only_f64_gains (W := Int) ⟨[0, 0], [1, 0], ["A", "B"]⟩
    [("A", [("A", 0), ("B", -1)]), ("B", [("A", 0), ("B", 0)])] 100
    [("B", [("B", 200000000)])]
    ⟨["Arbitrage opportunity: B <--> B, new trade amount is 200.00000000"]⟩
    (by decide)
    "Arbitrage opportunity: B <--> B, new trade amount is 200.00000000"
    (by decide)

/-! ### C4 — malformed keys and rate values panic instead of erroring -/

/-- C4 counterexample: the claim says `to_graph` returns a ParseError exactly
when a key lacks the `-` delimiter or a segment is not a valid integer,
including a value lacking the `.` separator. In fact a key without `-`
(indexing `tokens[1]`) and a value without `.` (indexing `v_parts[1]`) are
out-of-bounds panics, not error returns. -/
theorem malformed_key_or_value_panics :
    to_graph [("AB", "1.00000000")] = .crash ∧
    (to_graph [("AB", "1.00000000")]).isFail = false ∧
    to_graph [("A-B", "100000000")] = .crash ∧
    (to_graph [("A-B", "100000000")]).isFail = false :=
  ⟨rfl, rfl, rfl, rfl⟩

/-- Splitting on a character yields one more segment than occurrences. -/
theorem splitOnChar_length (c : Char) (l : List Char) :
    (splitOnChar c l).length = l.count c + 1 := by
  induction l with
  | nil => rfl
  | cons x xs ih =>
    unfold splitOnChar
    by_cases hx : x = c
    · rw [if_pos hx]
      simp [List.count_cons, hx, ih]
    · rw [if_neg hx]
      cases hr : splitOnChar c xs with
      | nil => rw [hr] at ih; simp at ih
      | cons h t =>
        rw [hr] at ih
        simp only [List.length_cons] at ih ⊢
        simp [List.count_cons, hx, ih]

/-- Segment count of the Rust split. -/
theorem rustSplit_length (c : Char) (s : String) :
    (rustSplit c s).length = s.data.count c + 1 := by
  unfold rustSplit
  rw [List.length_map, splitOnChar_length]

/-- A character occurs in a string iff its split has at least two segments. -/
theorem mem_iff_two_le_rustSplit (c : Char) (s : String) :
    c ∈ s.data ↔ 2 ≤ (rustSplit c s).length := by
  rw [rustSplit_length]
  constructor
  · intro h
    have := List.count_pos_iff.mpr h
    omega
  · intro h
    have : 0 < s.data.count c := by omega
    exact List.count_pos_iff.mp this

/-- The whole-number segment `v_parts[0]` of a rate value. -/
def wholeSeg (v : String) : String := (rustSplit '.' v).headD ""

/-- The fractional segment `v_parts[1]` of a rate value (empty when absent). -/
def fracSeg (v : String) : String := ((rustSplit '.' v).get? 1).getD ""

/-- Stated from the amended claim: the conditions under which one rate-map
entry produces a parse error (rather than a panic): the key contains the
delimiter, and either the whole segment fails `u64` parsing, or the value
contains the separator and the fractional segment fails `u64` parsing. -/
def entryParseError (k v : String) : Prop :=
  '-' ∈ k.data ∧
    (parse_u64 (wholeSeg v) = none ∨
      ('.' ∈ v.data ∧ parse_u64 (fracSeg v) = none))

/-- One entry yields the error return exactly under `entryParseError`. -/
theorem parseEntry_fail_iff (k v : String) :
    parseEntry (k, v) = .fail ↔ entryParseError k v := by
  have hkmem := mem_iff_two_le_rustSplit '-' k
  have hvmem := mem_iff_two_le_rustSplit '.' v
  unfold parseEntry entryParseError wholeSeg fracSeg
  cases hks : rustSplit '-' k with
  | nil =>
    rw [hks] at hkmem
    simp at hkmem
    simp [hks, hkmem]
  | cons t0 ts =>
    cases ts with
    | nil =>
      rw [hks] at hkmem
      simp at hkmem
      simp [hks, hkmem]
    | cons t1 rest =>
      rw [hks] at hkmem
      simp only [List.length_cons] at hkmem
      have hk : '-' ∈ k.data := hkmem.mpr (by omega)
      cases hvs : rustSplit '.' v with
      | nil =>
        have := rustSplit_length '.' v
        rw [hvs] at this
        simp at this
      | cons w0 vrest =>
        rw [hvs] at hvmem
        simp only [List.length_cons] at hvmem
        cases hpw : parse_u64 w0 with
        | none => simp [hks, hvs, hk, hpw]
        | some whole =>
          cases vrest with
          | nil =>
            have hv : ¬ ('.' ∈ v.data) := by
              rw [hvmem]; simp
            simp [hks, hvs, hk, hpw, hv]
          | cons f0 frest =>
            have hv : '.' ∈ v.data := hvmem.mpr (by simp)
            cases hpf : parse_u64 f0 with
            | none => simp [hks, hvs, hk, hpw, hv, hpf]
            | some frac => simp [hks, hvs, hk, hpw, hv, hpf]

/-- The build loop errors exactly when the first failing entry fails with a
parse error. -/
theorem to_graphAux_fail_iff : ∀ (l : List (String × String)) (g : GraphAL),
    to_graphAux l g = .fail ↔ ∃ l1 e l2, l = l1 ++ e :: l2 ∧
      (∀ e' ∈ l1, (parseEntry e').isOk = true) ∧ parseEntry e = .fail := by
  intro l
  induction l with
  | nil =>
    intro g
    constructor
    · intro h
      exact RRes.noConfusion h
    · rintro ⟨l1, e, l2, heq, -, -⟩
      exact absurd heq (by simp)
  | cons a rest ih =>
    intro g
    constructor
    · intro h
      unfold to_graphAux at h
      cases hpe : parseEntry a with
      | ok t =>
        rw [hpe] at h
        obtain ⟨l1, e, l2, heq, hall, hef⟩ := (ih _).mp h
        exact ⟨a :: l1, e, l2, by rw [heq, List.cons_append], by
          intro e' he'
          rcases List.mem_cons.mp he' with rfl | hm
          · simp [RRes.isOk, hpe]
          · exact hall e' hm, hef⟩
      | crash => rw [hpe] at h; exact RRes.noConfusion h
      | fail => exact ⟨[], a, rest, rfl, by simp, hpe⟩
    · rintro ⟨l1, e, l2, heq, hall, hef⟩
      unfold to_graphAux
      cases l1 with
      | nil =>
        simp only [List.nil_append] at heq
        cases heq
        rw [hef]
      | cons a' l1' =>
        simp only [List.cons_append, List.cons.injEq] at heq
        obtain ⟨rfl, hrest⟩ := heq
        have hok : (parseEntry a).isOk = true := hall a (List.mem_cons_self a l1')
        cases hpe : parseEntry a with
        | ok t =>
          exact (ih _).mpr ⟨l1', e, l2, hrest, fun e' he' =>
            hall e' (List.mem_cons_of_mem _ he'), hef⟩
        | crash => rw [hpe] at hok; exact Bool.noConfusion hok
        | fail => rfl

/-- C4 amended: `to_graph` returns a ParseError exactly when, scanning the rate
map in iteration order, all earlier entries parse and the first failing entry
has a key containing `-` and either a whole segment that is not a valid `u64`,
or a value containing `.` whose fractional segment is not a valid `u64`.
A key lacking `-` or a value lacking `.` panics instead
(`malformed_key_or_value_panics`). -/
theorem to_graph_parse_error_iff (l : List (String × String)) :
    to_graph l = .fail ↔ ∃ l1 e l2, l = l1 ++ e :: l2 ∧
      (∀ e' ∈ l1, (parseEntry e').isOk = true) ∧ entryParseError e.1 e.2 := by
  rw [to_graph, to_graphAux_fail_iff]
  constructor <;> rintro ⟨l1, e, l2, h1, h2, h3⟩ <;>
    refine ⟨l1, e, l2, h1, h2, ?_⟩
  · rw [← parseEntry_fail_iff e.1 e.2]
    rwa [Prod.mk.eta]
  · rw [show e = (e.1, e.2) from by rw [Prod.mk.eta]]
    exact (parseEntry_fail_iff e.1 e.2).mpr h3

/-! ### C10 — the vertex set is the set of first-component tokens -/

/-- The token `tokens[0]` of a pair key. -/
def firstTok (k : String) : String := (rustSplit '-' k).headD ""

/-- A successfully parsed entry is keyed by the first split component. -/
theorem parseEntry_ok_first {k v : String} {t : String × String × Nat}
    (h : parseEntry (k, v) = .ok t) : t.1 = firstTok k := by
  unfold parseEntry at h
  dsimp only at h
  split at h <;> try exact RRes.noConfusion h
  next t0 t1 rest hks =>
    split at h <;> try exact RRes.noConfusion h
    next w0 vrest hvs =>
      split at h <;> try exact RRes.noConfusion h
      next whole hpw =>
        split at h <;> try exact RRes.noConfusion h
        next f0 frest =>
          split at h <;> try exact RRes.noConfusion h
          next frac hpf =>
            injection h with h
            rw [← h]
            unfold firstTok
            rw [hks]
            rfl

/-- Membership in the parsed-entry list. -/
theorem mem_entryList {l : List (String × String)} {t : String × String × Nat} :
    t ∈ entryList l ↔ ∃ e ∈ l, parseEntry e = .ok t := by
  unfold entryList
  rw [List.mem_filterMap]
  constructor
  · rintro ⟨e, he, hf⟩
    refine ⟨e, he, ?_⟩
    cases hpe : parseEntry e with
    | ok t' => rw [hpe] at hf; injection hf with hf; rw [hf]
    | crash => rw [hpe] at hf; exact Option.noConfusion hf
    | fail => rw [hpe] at hf; exact Option.noConfusion hf
  · rintro ⟨e, he, hf⟩
    exact ⟨e, he, by rw [hf]⟩

/-- A successful build means every entry parsed. -/
theorem to_graphAux_ok_all {l : List (String × String)} {g g' : GraphAL}
    (h : to_graphAux l g = .ok g') : ∀ e ∈ l, (parseEntry e).isOk = true := by
  induction l generalizing g with
  | nil => intro e he; exact absurd he (List.not_mem_nil e)
  | cons a rest ih =>
    intro e he
    unfold to_graphAux at h
    cases hpe : parseEntry a with
    | ok t =>
      rw [hpe] at h
      rcases List.mem_cons.mp he with rfl | hm
      · simp [RRes.isOk, hpe]
      · exact ih h e hm
    | crash => rw [hpe] at h; exact RRes.noConfusion h
    | fail => rw [hpe] at h; exact RRes.noConfusion h

/-- When every entry parses, the build loop is the fold of insertions over the
parsed entries. -/
theorem to_graphAux_ok_eq {l : List (String × String)} {g : GraphAL}
    (hall : ∀ e ∈ l, (parseEntry e).isOk = true) :
    to_graphAux l g = .ok (buildGraph (entryList l) g) := by
  induction l generalizing g with
  | nil => rfl
  | cons a rest ih =>
    have hok := hall a (List.mem_cons_self a rest)
    cases hpe : parseEntry a with
    | ok t =>
      unfold to_graphAux
      rw [hpe]
      have : entryList (a :: rest) = t :: entryList rest := by
        unfold entryList
        simp only [List.filterMap_cons, hpe]
      rw [this]
      unfold buildGraph
      exact ih (fun e he => hall e (List.mem_cons_of_mem a he))
    | crash => rw [hpe] at hok; exact Bool.noConfusion hok
    | fail => rw [hpe] at hok; exact Bool.noConfusion hok

/-- Key membership after one insertion. -/
theorem mem_keysAL_alInsert2 {g : GraphAL} {a b : String} {w : Nat} {t : String} :
    t ∈ keysAL (alInsert2 g a b w) ↔ t ∈ keysAL g ∨ t = a := by
  induction g with
  | nil => simp [alInsert2, keysAL]
  | cons p rest ih =>
    obtain ⟨k, edges⟩ := p
    unfold alInsert2
    by_cases hk : k = a
    · rw [if_pos hk]
      subst hk
      simp [keysAL]
      tauto
    · rw [if_neg hk]
      simp only [keysAL, List.map_cons, List.mem_cons] at ih ⊢
      tauto

/-- Key membership after all insertions. -/
theorem mem_keysAL_buildGraph {d : List (String × String × Nat)} {g : GraphAL}
    {t : String} :
    t ∈ keysAL (buildGraph d g) ↔ t ∈ keysAL g ∨ t ∈ d.map (fun e => e.1) := by
  induction d generalizing g with
  | nil => simp [buildGraph]
  | cons e rest ih =>
    obtain ⟨a, b, w⟩ := e
    unfold buildGraph
    rw [ih]
    simp only [List.map_cons, List.mem_cons, mem_keysAL_alInsert2]
    tauto

/-- An `ok` result carries a value. -/
theorem RRes_isOk_exists {α : Type} {r : RRes α} (h : r.isOk = true) :
    ∃ x, r = .ok x := by
  cases r with
  | ok x => exact ⟨x, rfl⟩
  | crash => exact Bool.noConfusion h
  | fail => exact Bool.noConfusion h

/-- C10: for every rate mapping accepted by `to_graph`, a token is a vertex
(has an adjacency row, hence an index and a slot in the `min_dist`/`pre`
arrays of dimension `tokens_count = keys.len()`) exactly when it appears as the
first component of some pair key; a token appearing only as a second component
has no row. -/
theorem vertex_set_first_components (l : List (String × String)) (g : GraphAL)
    (h : to_graph l = .ok g) :
    (∀ t, t ∈ keysAL g ↔ ∃ e ∈ l, firstTok e.1 = t) ∧
    (ArbitrageIteration.new FMAX (keysAL g).length).min_dist.length =
      (keysAL g).length ∧
    (ArbitrageIteration.new FMAX (keysAL g).length).pre.length =
      (keysAL g).length := by
  have hall : ∀ e ∈ l, (parseEntry e).isOk = true := to_graphAux_ok_all h
  have heq : to_graph l = .ok (buildGraph (entryList l) []) :=
    to_graphAux_ok_eq hall
  rw [heq] at h
  injection h with h
  refine ⟨?_, by simp [ArbitrageIteration.new], by simp [ArbitrageIteration.new]⟩
  intro t
  rw [← h, mem_keysAL_buildGraph]
  simp only [keysAL, List.map_nil, List.not_mem_nil, false_or, List.mem_map]
  constructor
  · rintro ⟨tr, htr, rfl⟩
    obtain ⟨e, he, hpe⟩ := mem_entryList.mp htr
    refine ⟨e, he, ?_⟩
    rw [← parseEntry_ok_first (t := tr) (by rw [← hpe, Prod.mk.eta])]
  · rintro ⟨e, he, rfl⟩
    obtain ⟨tr, htr⟩ := RRes_isOk_exists (hall e he)
    refine ⟨tr, mem_entryList.mpr ⟨e, he, htr⟩, ?_⟩
    exact parseEntry_ok_first (t := tr) (by rw [Prod.mk.eta, htr])

/-- C10 witness: for the single entry `A-B`, `A` is a vertex and `B` is not. -/
theorem vertex_set_first_components_witness :
    "A" ∈ keysAL [("A", [("B", 100000000)])] ∧
    "B" ∉ keysAL [("A", [("B", 100000000)])] ∧
    ("B" ∈ keysAL [("A", [("B", 100000000)])] ↔
      ∃ e ∈ [("A-B", "1.00000000")], firstTok e.1 = "B") :=
  ⟨by decide, by decide,
    (vertex_set_first_components [("A-B", "1.00000000")]
      [("A", [("B", 100000000)])] (by decide)).1 "B"⟩

/-! ### C9 — determinism of the full pipeline -/

/-- Characters with equal code points are equal. -/
theorem charToNat_inj {a b : Char} (h : a.toNat = b.toNat) : a = b := by
  cases a; cases b
  apply Char.ext
  simp only [Char.toNat] at h
  exact UInt32.toNat.inj h

/-- Totality of the byte-lexicographic order. -/
theorem strLeAux_total : ∀ a b : List Char, strLeAux a b = true ∨ strLeAux b a = true := by
  intro a
  induction a with
  | nil => intro b; left; rfl
  | cons x xs ih =>
    intro b
    cases b with
    | nil => right; rfl
    | cons y ys =>
      unfold strLeAux
      by_cases hxy : x = y
      · subst hxy
        simp only [if_pos rfl]
        exact ih ys
      · have hyx : ¬ (y = x) := fun h => hxy h.symm
        rw [if_neg hxy, if_neg hyx]
        rcases Nat.lt_trichotomy x.toNat y.toNat with h | h | h
        · left; exact decide_eq_true h
        · exact absurd (charToNat_inj h) hxy
        · right; exact decide_eq_true h

/-- Transitivity of the byte-lexicographic order. -/
theorem strLeAux_trans : ∀ a b c : List Char, strLeAux a b = true →
    strLeAux b c = true → strLeAux a c = true := by
  intro a
  induction a with
  | nil => intro b c _ _; rfl
  | cons x xs ih =>
    intro b c h1 h2
    cases b with
    | nil => exact Bool.noConfusion h1
    | cons y ys =>
      cases c with
      | nil => exact Bool.noConfusion h2
      | cons z zs =>
        unfold strLeAux at h1 h2 ⊢
        by_cases hxy : x = y
        · rw [if_pos hxy] at h1
          by_cases hyz : y = z
          · rw [if_pos hyz] at h2
            rw [if_pos (hxy.trans hyz)]
            exact ih ys zs h1 h2
          · rw [if_neg hyz] at h2
            have hxz : ¬ (x = z) := fun h => hyz (hxy.symm.trans h)
            rw [if_neg hxz]
            have hlt2 : y.toNat < z.toNat := of_decide_eq_true h2
            exact decide_eq_true (by rw [hxy]; exact hlt2)
        · rw [if_neg hxy] at h1
          have hlt1 : x.toNat < y.toNat := of_decide_eq_true h1
          by_cases hyz : y = z
          · have hxz : ¬ (x = z) := fun h => hxy (h.trans hyz.symm)
            rw [if_neg hxz]
            exact decide_eq_true (hyz ▸ hlt1)
          · rw [if_neg hyz] at h2
            have hlt2 : y.toNat < z.toNat := of_decide_eq_true h2
            have hlt : x.toNat < z.toNat := Nat.lt_trans hlt1 hlt2
            have hxz : ¬ (x = z) := fun h => by
              rw [h] at hlt
              exact Nat.lt_irrefl _ hlt
            rw [if_neg hxz]
            exact decide_eq_true hlt

/-- Antisymmetry of the byte-lexicographic order. -/
theorem strLeAux_antisymm : ∀ a b : List Char, strLeAux a b = true →
    strLeAux b a = true → a = b := by
  intro a
  induction a with
  | nil =>
    intro b _ h2
    cases b with
    | nil => rfl
    | cons y ys => exact Bool.noConfusion h2
  | cons x xs ih =>
    intro b h1 h2
    cases b with
    | nil => exact Bool.noConfusion h1
    | cons y ys =>
      unfold strLeAux at h1 h2
      by_cases hxy : x = y
      · rw [if_pos hxy] at h1
        rw [if_pos hxy.symm] at h2
        rw [hxy, ih ys h1 h2]
      · have hyx : ¬ (y = x) := fun h => hxy h.symm
        rw [if_neg hxy] at h1
        rw [if_neg hyx] at h2
        exact absurd (Nat.lt_trans (of_decide_eq_true h1) (of_decide_eq_true h2))
          (Nat.lt_irrefl _)

/-- Strings with equal character lists are equal. -/
theorem string_data_inj {a b : String} (h : a.data = b.data) : a = b := by
  cases a; cases b
  exact congrArg String.mk h

instance : IsTrans String strOrd :=
  ⟨fun a b c => strLeAux_trans a.data b.data c.data⟩

instance : IsTotal String strOrd :=
  ⟨fun a b => strLeAux_total a.data b.data⟩

instance : IsAntisymm String strOrd :=
  ⟨fun a b h1 h2 => string_data_inj (strLeAux_antisymm a.data b.data h1 h2)⟩

/-- Sorting is a function of the multiset: permuted inputs sort identically. -/
theorem sortStrings_eq_of_perm {l1 l2 : List String} (h : l1.Perm l2) :
    sortStrings l1 = sortStrings l2 :=
  List.eq_of_perm_of_sorted
    ((List.perm_insertionSort strOrd l1).trans
      (h.trans (List.perm_insertionSort strOrd l2).symm))
    (List.sorted_insertionSort strOrd l1) (List.sorted_insertionSort strOrd l2)

/-- Lookup after one insertion. -/
theorem alFind_alInsert {V : Type} (l : List (String × V)) (k x : String) (v : V) :
    alFind (alInsert l k v) x = if k = x then some v else alFind l x := by
  induction l with
  | nil => rfl
  | cons p rest ih =>
    obtain ⟨k', v'⟩ := p
    by_cases hk : k' = k <;> by_cases hx : k = x <;>
      simp_all [alInsert, alFind]

/-- Two-level lookup after one graph insertion. -/
theorem lookup2_alInsert2 (g : GraphAL) (a b : String) (w : Nat) (x y : String) :
    lookup2 (alInsert2 g a b w) x y =
      if x = a ∧ y = b then some w else lookup2 g x y := by
  induction g with
  | nil =>
    by_cases hx : x = a <;> by_cases hy : y = b <;>
      simp_all [alInsert2, lookup2, alFind, alFind_alInsert] <;>
      simp_all [eq_comm]
  | cons p rest ih =>
    obtain ⟨k, edges⟩ := p
    by_cases hk : k = a <;> by_cases hx : k = x <;> by_cases hy : y = b <;>
      simp_all [alInsert2, lookup2, alFind, alFind_alInsert] <;>
      simp_all [eq_comm]

/-- The built graph's lookup is the last write for the queried ordered pair. -/
theorem lookup2_buildGraph (d : List (String × String × Nat)) (g : GraphAL)
    (x y : String) :
    lookup2 (buildGraph d g) x y =
      match lastVal d x y with
      | some w => some w
      | none => lookup2 g x y := by
  induction d generalizing g with
  | nil => rfl
  | cons e rest ih =>
    obtain ⟨a, b, w⟩ := e
    unfold buildGraph lastVal
    rw [ih]
    cases hlv : lastVal rest x y with
    | some w' => rfl
    | none =>
      dsimp only
      rw [lookup2_alInsert2]
      by_cases hab : x = a ∧ y = b
      · rw [if_pos hab, if_pos hab]
      · rw [if_neg hab, if_neg hab]

/-- The ordered token pair of a parsed entry. -/
def pairKey (t : String × String × Nat) : String × String := (t.1, t.2.1)

/-- With no duplicate ordered pairs, the last write is the unique entry. -/
theorem lastVal_eq_some_iff {d : List (String × String × Nat)}
    (hnd : (d.map pairKey).Nodup) (x y : String) :
    ∀ w, lastVal d x y = some w ↔ (x, y, w) ∈ d := by
  induction d with
  | nil => simp [lastVal]
  | cons e rest ih =>
    obtain ⟨a, b, w'⟩ := e
    rw [List.map_cons, List.nodup_cons] at hnd
    obtain ⟨hhead, htail⟩ := hnd
    intro w
    unfold lastVal
    constructor
    · intro h
      cases hlv : lastVal rest x y with
      | some w'' =>
        rw [hlv] at h
        injection h with h
        rw [← h]
        exact List.mem_cons_of_mem _ ((ih htail w'').mp hlv)
      | none =>
        rw [hlv] at h
        by_cases hab : x = a ∧ y = b
        · rw [if_pos hab] at h
          injection h with h
          rw [hab.1, hab.2, h]
          exact List.mem_cons_self _ _
        · rw [if_neg hab] at h
          exact Option.noConfusion h
    · intro h
      rcases List.mem_cons.mp h with heq | hm
      · injection heq with h1 h2
        injection h2 with h2 h3
        have hlv : lastVal rest x y = none := by
          cases hlv : lastVal rest x y with
          | none => rfl
          | some w'' =>
            exfalso
            have hmem := (ih htail w'').mp hlv
            have hmap : pairKey (x, y, w'') ∈ rest.map pairKey :=
              List.mem_map_of_mem pairKey hmem
            rw [show pairKey (x, y, w'') = (a, b) from by
              unfold pairKey; rw [h1, h2]] at hmap
            exact hhead hmap
        rw [hlv]
        rw [if_pos ⟨h1, h2⟩, h3]
      · rw [(ih htail w).mpr hm]

/-- With no duplicate ordered pairs, the last write does not depend on the
iteration order. -/
theorem lastVal_perm {d1 d2 : List (String × String × Nat)} (hp : d1.Perm d2)
    (hnd : (d1.map pairKey).Nodup) (x y : String) :
    lastVal d1 x y = lastVal d2 x y := by
  have hnd2 : (d2.map pairKey).Nodup := ((hp.map pairKey).nodup_iff).mp hnd
  cases h1 : lastVal d1 x y with
  | some w =>
    have hm := (lastVal_eq_some_iff hnd x y w).mp h1
    exact ((lastVal_eq_some_iff hnd2 x y w).mpr (hp.mem_iff.mp hm)).symm
  | none =>
    cases h2 : lastVal d2 x y with
    | none => rfl
    | some w =>
      have hm := (lastVal_eq_some_iff hnd2 x y w).mp h2
      rw [(lastVal_eq_some_iff hnd x y w).mpr (hp.mem_iff.mpr hm)] at h1
      exact Option.noConfusion h1

/-- Insertion keeps row keys distinct. -/
theorem nodup_keysAL_alInsert2 (g : GraphAL) (a b : String) (w : Nat)
    (h : (keysAL g).Nodup) : (keysAL (alInsert2 g a b w)).Nodup := by
  induction g with
  | nil => simp [alInsert2, keysAL]
  | cons p rest ih =>
    obtain ⟨k, edges⟩ := p
    rw [keysAL, List.map_cons, List.nodup_cons] at h
    obtain ⟨hk, hrest⟩ := h
    unfold alInsert2
    by_cases hka : k = a
    · rw [if_pos hka]
      rw [keysAL, List.map_cons, List.nodup_cons]
      exact ⟨by rw [← hka]; exact hk, hrest⟩
    · rw [if_neg hka]
      rw [keysAL, List.map_cons, List.nodup_cons]
      refine ⟨?_, ih hrest⟩
      intro hmem
      rcases mem_keysAL_alInsert2.mp hmem with hm | hm
      · exact hk hm
      · exact hka hm

/-- The built graph has distinct row keys. -/
theorem nodup_keysAL_buildGraph (d : List (String × String × Nat)) :
    ∀ g : GraphAL, (keysAL g).Nodup → (keysAL (buildGraph d g)).Nodup := by
  induction d with
  | nil => intro g h; exact h
  | cons e rest ih =>
    obtain ⟨a, b, w⟩ := e
    intro g h
    exact ih _ (nodup_keysAL_alInsert2 g a b w h)

/-- Row lookup commutes with the log-negation of the row. -/
theorem alFind_inner_log (edges : List (String × Nat)) (y : String) :
    alFind (edges.map (fun q => (q.1, log_negate_weight q.2))) y =
      (alFind edges y).map (fun w => log_negate_weight w) := by
  induction edges with
  | nil => rfl
  | cons q rest ih =>
    obtain ⟨k, v⟩ := q
    rw [List.map_cons]
    unfold alFind
    by_cases hk : k = y
    · rw [if_pos hk, if_pos hk]
      rfl
    · rw [if_neg hk, if_neg hk, ih]

/-- Graph lookup commutes with log-negation. -/
theorem alFind_log_negate (g : GraphAL) (x : String) :
    alFind (log_negate g) x =
      (alFind g x).map
        (fun edges => edges.map (fun q => (q.1, log_negate_weight q.2))) := by
  induction g with
  | nil => rfl
  | cons p rest ih =>
    obtain ⟨k, edges⟩ := p
    unfold log_negate at ih ⊢
    rw [List.map_cons]
    unfold alFind
    by_cases hk : k = x
    · rw [if_pos hk, if_pos hk]
      rfl
    · rw [if_neg hk, if_neg hk, ih]

/-- Log-negation preserves the key structure. -/
theorem keysAL_log_negate (g : GraphAL) : keysAL (log_negate g) = keysAL g := by
  unfold keysAL log_negate
  rw [List.map_map]
  rfl

/-- Edge lookup in the log-negated graph is the log-negated edge lookup. -/
theorem lookup2_log_negate (g : GraphAL) (x y : String) :
    lookup2 (log_negate g) x y =
      (lookup2 g x y).map (fun w => log_negate_weight w) := by
  unfold lookup2
  rw [alFind_log_negate]
  cases alFind g x with
  | none => rfl
  | some edges =>
    dsimp only [Option.map_some, Option.some_bind]
    exact alFind_inner_log edges y

/-- C9: the pipeline is deterministic. The unspecified `HashMap` iteration
order is modelled by the order of the input list, so two runs on the same rate
mapping are two permutations of the same entry list: when every entry parses
and the derived ordered token pairs are distinct (guaranteed by the input
contract, whose composite keys are unique and whose tokens are delimiter-free),
both runs produce identical output, because the vertex order is fixed by
sorting and the graphs agree as key-set-plus-lookup. -/
theorem pipeline_deterministic (l1 l2 : List (String × String)) (a : Nat)
    (hperm : l1.Perm l2)
    (hok : ∀ e ∈ l1, (parseEntry e).isOk = true)
    (hnd : ((entryList l1).map pairKey).Nodup) :
    pipeline l1 a = pipeline l2 a := by
  have hok2 : ∀ e ∈ l2, (parseEntry e).isOk = true := fun e he =>
    hok e (hperm.mem_iff.mpr he)
  have hpe : (entryList l1).Perm (entryList l2) := hperm.filterMap _
  have hnd2 : ((entryList l2).map pairKey).Nodup := ((hpe.map pairKey).nodup_iff).mp hnd
  have hg1 : to_graph l1 = .ok (buildGraph (entryList l1) []) := to_graphAux_ok_eq hok
  have hg2 : to_graph l2 = .ok (buildGraph (entryList l2) []) := to_graphAux_ok_eq hok2
  have hlook : lookup2 (buildGraph (entryList l1) []) =
      lookup2 (buildGraph (entryList l2) []) := by
    funext x y
    rw [lookup2_buildGraph, lookup2_buildGraph, lastVal_perm hpe hnd x y]
  have hkm : ∀ t, t ∈ keysAL (buildGraph (entryList l1) []) ↔
      t ∈ keysAL (buildGraph (entryList l2) []) := by
    intro t
    rw [mem_keysAL_buildGraph, mem_keysAL_buildGraph]
    constructor
    · rintro (h | h)
      · exact absurd h (by simp [keysAL])
      · exact Or.inr ((hpe.map _).mem_iff.mp h)
    · rintro (h | h)
      · exact absurd h (by simp [keysAL])
      · exact Or.inr ((hpe.map _).mem_iff.mpr h)
  have hkperm : (keysAL (buildGraph (entryList l1) [])).Perm
      (keysAL (buildGraph (entryList l2) [])) :=
    (List.perm_ext_iff_of_nodup (nodup_keysAL_buildGraph _ _ (by simp [keysAL]))
      (nodup_keysAL_buildGraph _ _ (by simp [keysAL]))).mpr hkm
  have hsort : sortStrings (keysAL (buildGraph (entryList l1) [])) =
      sortStrings (keysAL (buildGraph (entryList l2) [])) :=
    sortStrings_eq_of_perm hkperm
  have hlen : (keysAL (buildGraph (entryList l1) [])).length =
      (keysAL (buildGraph (entryList l2) [])).length := hkperm.length_eq
  have hlookn : lookup2 (log_negate (buildGraph (entryList l1) [])) =
      lookup2 (log_negate (buildGraph (entryList l2) [])) := by
    funext x y
    rw [lookup2_log_negate, lookup2_log_negate, congrFun (congrFun hlook x) y]
  have hcomp : compute_arbitrage_opportunities FMAX
      (ArbitrageIteration.new FMAX (keysAL (buildGraph (entryList l1) [])).length)
      (log_negate (buildGraph (entryList l1) [])) =
      compute_arbitrage_opportunities FMAX
      (ArbitrageIteration.new FMAX (keysAL (buildGraph (entryList l2) [])).length)
      (log_negate (buildGraph (entryList l2) [])) := by
    unfold compute_arbitrage_opportunities
    rw [keysAL_log_negate, keysAL_log_negate, hsort, hlen, hlookn]
  have htr : ∀ st : ArbitrageIteration ℝ,
      trades st (log_negate (buildGraph (entryList l1) [])) a
        (buildGraph (entryList l1) []) =
      trades st (log_negate (buildGraph (entryList l2) [])) a
        (buildGraph (entryList l2) []) := by
    intro st
    unfold trades
    rw [hlookn, hlook]
  unfold pipeline
  rw [hg1, hg2]
  dsimp only
  rw [hcomp]
  simp only [htr]

/-- C9 witness: the two orders of a concrete two-entry mapping give equal
pipeline output. -/
theorem pipeline_deterministic_witness :
    pipeline [("A-B", "2.00000000"), ("B-A", "0.70000000")] 100 =
    pipeline [("B-A", "0.70000000"), ("A-B", "2.00000000")] 100 :=
  pipeline_deterministic [("A-B", "2.00000000"), ("B-A", "0.70000000")]
    [("B-A", "0.70000000"), ("A-B", "2.00000000")] 100 (by decide) (by decide)
    (by decide)

/-- C4 amended, witness: a rate value whose fractional segment is not numeric
is a ParseError, characterized by the iff at this input. -/
theorem to_graph_parse_error_iff_witness :
    to_graph [("A-B", "1.0a000000")] = .fail ↔ ∃ l1 e l2,
      [("A-B", "1.0a000000")] = l1 ++ e :: l2 ∧
      (∀ e' ∈ l1, (parseEntry e').isOk = true) ∧ entryParseError e.1 e.2 :=
  to_graph_parse_error_iff [("A-B", "1.0a000000")]

/-- C7 amended, witness at integer weights and a one-token graph. -/
theorem relax_extract_no_error_path_witness :
    (compute_arbitrage_opportunities (10 ^ 9 : Int)
      (ArbitrageIteration.new (10 ^ 9 : Int) 1)
      [("T", [("T", -27)])]).isFail = false ∧
    (trades (ArbitrageIteration.new (10 ^ 9 : Int) 1) [("T", [("T", -27)])] 100
      [("T", [("T", 100000000)])]).isFail = false :=
  relax_extract_no_error_path (10 ^ 9 : Int)
    (ArbitrageIteration.new (10 ^ 9 : Int) 1) [("T", [("T", -27)])] 100
    [("T", [("T", 100000000)])]

/-- C8 witness at trade amount 100. -/
theorem single_token_panics_witness :
    pipeline [("T-T", "1.00000000")] 100 = .crash :=
  single_token_panics 100
